import Mathlib

/- Verification of scripts/validate_versions.py, a documentation-consistency
   checker: it parses canonical tool versions from a pre-commit configuration
   file and compares them with version references found in markdown guides.
   Strings are modelled as lists of characters; the Python string and regex
   primitives the script uses are modelled over the ASCII whitespace fragment.
   File contents are passed in explicitly, so the filesystem side of the
   script (fixed paths, globbing) appears here as explicit arguments. -/

namespace ValidateVersions

abbrev Str := List Char

/-- ASCII fragment of Python whitespace, as tested by str.strip and by the
    regex class of whitespace characters. -/
def pyWS (c : Char) : Bool :=
  c == ' ' || c == '\t' || c == '\n' || c == '\r' || c == '\x0b' || c == '\x0c'

/-- Line boundary characters recognised by str.splitlines. -/
def pyLineBreak (c : Char) : Bool :=
  c == '\n' || c == '\r' || c == '\x0b' || c == '\x0c' || c == '\x1c' ||
  c == '\x1d' || c == '\x1e' || c == '\x85' || c == '\u2028' || c == '\u2029'

/-- Model of str.strip with no argument: drop leading and trailing
    whitespace. -/
def pyStrip (s : Str) : Str :=
  ((s.dropWhile pyWS).reverse.dropWhile pyWS).reverse

/-- Accumulator-based worker for str.splitlines; a carriage return directly
    followed by a line feed counts as a single boundary, and a trailing
    boundary produces no empty final line. -/
def splitlinesAux (cur : Str) : Str → List Str
  | [] => if cur = [] then [] else cur.reverse :: []
  | '\r' :: '\n' :: rest => cur.reverse :: splitlinesAux [] rest
  | c :: rest =>
    if pyLineBreak c then cur.reverse :: splitlinesAux [] rest
    else splitlinesAux (c :: cur) rest

/-- Model of content.splitlines(). -/
def pySplitlines (s : Str) : List Str := splitlinesAux [] s

/-- The version-control directory suffix: dot g i t. -/
def gitLit : Str := ('.' :: 'g' :: 'i' :: 't' :: [])

/-- Worker for str.replace with empty replacement: scan left to right,
    remove each non-overlapping occurrence of the separator, never rescan
    across a removal boundary.  The fuel argument only bounds the recursion;
    one unit per character position suffices. -/
def pyRemoveAux (sep : Str) : Nat → Str → Str
  | 0, s => s
  | _, [] => []
  | fuel + 1, c :: rest =>
    if sep.isPrefixOf (c :: rest) then
      pyRemoveAux sep fuel ((c :: rest).drop sep.length)
    else
      c :: pyRemoveAux sep fuel rest

/-- Model of s.replace(sep, empty string). -/
def pyRemove (sep s : Str) : Str := pyRemoveAux sep s.length s

/-- Removal of every occurrence of the version-control suffix, written as a
    direct recursion on the character list: used by the amended statement of
    the normalization contract and proved equal to the replace model. -/
def dropGit : Str → Str
  | '.' :: 'g' :: 'i' :: 't' :: rest => dropGit rest
  | c :: rest => c :: dropGit rest
  | [] => []

/-- Removal of one trailing version-control suffix, and only a trailing one:
    the normalization step exactly as the claim words it. -/
def dropTrailingGit (s : Str) : Str :=
  if gitLit.isSuffixOf s then s.take (s.length - 4) else s

/-- The hosting-site marker: g i t h u b dot c o m slash. -/
def ghLit : Str :=
  ('g' :: 'i' :: 't' :: 'h' :: 'u' :: 'b' :: '.' :: 'c' :: 'o' :: 'm' :: '/' :: [])

/-- Occurrences of a separator, scanned left to right without overlap, as
    str.split does; some r gives the text after the last occurrence found,
    i.e. the final element of the split, and none means no occurrence, i.e.
    the containment test fails.  One unit of fuel per character position
    suffices. -/
def afterSepAux (sep : Str) : Nat → Str → Option Str
  | 0, _ => none
  | _, [] => none
  | fuel + 1, c :: rest =>
    if sep.isPrefixOf (c :: rest) then
      let after := (c :: rest).drop sep.length
      match afterSepAux sep fuel after with
      | some r => some r
      | none => some after
    else afterSepAux sep fuel rest

/-- The text after the last occurrence of the hosting-site marker, when the
    marker occurs at all: the containment test and the final element of
    url.split on the marker, fused into one scan. -/
def afterGithub (u : Str) : Option Str := afterSepAux ghLit u.length u

/-- The text after the last path separator: the final element of url.split
    on the slash character. -/
def afterLastSlash (s : Str) : Str :=
  s.foldl (fun acc c => if c = '/' then [] else acc ++ [c]) []

/-- Model of normalize_repo_url (validate_versions.py lines 12 to 19):
    strip surrounding whitespace, delete every occurrence of the
    version-control suffix, then return either the text after the hosting
    marker or the final path segment. -/
def normalize_repo_url (url : Str) : Str :=
  let u := pyRemove gitLit (pyStrip url)
  match afterGithub u with
  | some r => r
  | none => afterLastSlash u

/-- The normalization function exactly as the claim words it: strip one
    trailing version-control suffix (and only a trailing one), then branch
    on the hosting marker, else take the final path segment. -/
def normalize_claimed (url : Str) : Str :=
  let u := dropTrailingGit url
  match afterGithub u with
  | some r => r
  | none => afterLastSlash u

/-- The amended normalization contract: strip surrounding whitespace, delete
    every occurrence of the version-control suffix scanning left to right
    without overlap, then branch on the hosting marker, else take the final
    path segment. -/
def normalize_amended (url : Str) : Str :=
  let u := dropGit (pyStrip url)
  match afterGithub u with
  | some r => r
  | none => afterLastSlash u

/-- Backtracking alternatives of a greedy one-or-more quantifier over a run
    of length n: the lengths n down to 1. -/
def altsDesc (n : Nat) : List Nat := ((List.range n).reverse).map (fun k => k + 1)

/-- Backtracking alternatives of a greedy zero-or-more quantifier over a run
    of length n: the lengths n down to 0. -/
def altsDesc0 (n : Nat) : List Nat := (List.range (n + 1)).reverse

/-- Backtracking alternatives of a lazy one-or-more quantifier over a run of
    length n: the lengths 1 up to n. -/
def altsAsc (n : Nat) : List Nat := (List.range n).map (fun k => k + 1)

/-- The literal r e p o colon. -/
def repoLit : Str := ('r' :: 'e' :: 'p' :: 'o' :: ':' :: [])

/-- The literal r e v colon. -/
def revLit : Str := ('r' :: 'e' :: 'v' :: ':' :: [])

/-- Tail of the config repo pattern after its literal: one or more
    whitespace characters (greedy), then a greedy run of non-newline
    characters bound as group one, then the end-of-line anchor, which
    accepts the end of the string or a single final newline. -/
def repoTail (t : Str) : Option Str :=
  let w := t.takeWhile pyWS
  let r := t.dropWhile pyWS
  (altsDesc w.length).findSome? (fun k =>
    let u := w.drop k ++ r
    let d := u.takeWhile (fun c => c ≠ '\n')
    (altsDesc d.length).findSome? (fun m =>
      let rest := u.drop m
      if rest = [] ∨ rest = ('\n' :: []) then some (u.take m) else none))

/-- Leftmost search: try a matcher at every start position in turn, first
    success wins, as re.search does. -/
def searchAux (f : Str → Option Str) : Str → Option Str
  | [] => f []
  | c :: rest =>
    match f (c :: rest) with
    | some g => some g
    | none => searchAux f rest

/-- Model of re.search of the config repo pattern applied to one line. -/
def searchRepoLine (line : Str) : Option Str :=
  searchAux (fun t => if repoLit.isPrefixOf t then repoTail (t.drop 5) else none) line

/-- Tail of the config rev pattern after its literal: one or more whitespace
    characters (greedy), then a greedy run of one or more non-whitespace
    characters bound as group one. -/
def revTail (t : Str) : Option Str :=
  let w := t.takeWhile pyWS
  let r := t.dropWhile pyWS
  (altsDesc w.length).findSome? (fun k =>
    let u := w.drop k ++ r
    let d := u.takeWhile (fun c => !(pyWS c))
    (altsDesc d.length).findSome? (fun m => some (u.take m)))

/-- Model of re.search of the config rev pattern applied to one line. -/
def searchRevLine (line : Str) : Option Str :=
  searchAux (fun t => if revLit.isPrefixOf t then revTail (t.drop 4) else none) line

/-- Association list with in-place update, modelling assignment into a
    Python dict: a repeated key keeps its original position and takes the
    new value, a new key is appended, so iteration order is insertion
    order. -/
def insertAL (m : List (Str × Str)) (k v : Str) : List (Str × Str) :=
  match m with
  | [] => (k, v) :: []
  | (k', v') :: rest => if k' = k then (k', v) :: rest else (k', v') :: insertAL rest k v

/-- Lookup in the association list, modelling dict indexing and dict.get. -/
def lookupAL (m : List (Str × Str)) (k : Str) : Option Str :=
  match m with
  | [] => none
  | (k', v') :: rest => if k' = k then some v' else lookupAL rest k

/-- One line of the config scan, the loop body of parse_pre_commit_config
    (lines 42 to 55): the state is the pending repository identity and the
    map built so far.  The empty pending identity models both the initial
    None and a falsy normalized identity, which the source treats alike. -/
def parseStep (st : Str × List (Str × Str)) (line : Str) : Str × List (Str × Str) :=
  let l := pyStrip line
  match searchRepoLine l with
  | some g => (normalize_repo_url g, st.2)
  | none =>
    if st.1 ≠ [] then
      match searchRevLine l with
      | some t => ([], insertAL st.2 st.1 t)
      | none => st
    else st

/-- Model of parse_pre_commit_config applied to the config file content;
    the missing-file exit of the source lives in runMain, which receives
    none when the file is absent. -/
def parse_pre_commit_config (content : Str) : List (Str × Str) :=
  ((pySplitlines content).foldl parseStep ([], [])).2

/-- Final piece of the block pattern: one or more whitespace characters
    (greedy), then a greedy run of one or more non-whitespace characters
    bound as group two; returns the group and the text after the match. -/
def tryG2 (t : Str) : Option (Str × Str) :=
  let w := t.takeWhile pyWS
  let r := t.dropWhile pyWS
  (altsDesc w.length).findSome? (fun k =>
    let u := w.drop k ++ r
    let d := u.takeWhile (fun c => !(pyWS c))
    (altsDesc d.length).findSome? (fun m => some (u.take m, u.drop m)))

/-- Piece of the block pattern after the mandatory newline: zero or more
    whitespace characters (greedy), the rev literal, then the final piece. -/
def tryRev (t : Str) : Option (Str × Str) :=
  let w := t.takeWhile pyWS
  let r := t.dropWhile pyWS
  (altsDesc0 w.length).findSome? (fun k =>
    let u := w.drop k ++ r
    if revLit.isPrefixOf u then tryG2 (u.drop 4) else none)

/-- Piece of the block pattern after group one: zero or more whitespace
    characters (greedy), the mandatory newline, then the rest. -/
def tryNl (t : Str) : Option (Str × Str) :=
  let w := t.takeWhile pyWS
  let r := t.dropWhile pyWS
  (altsDesc0 w.length).findSome? (fun k =>
    match w.drop k ++ r with
    | '\n' :: u => tryRev u
    | _ => none)

/-- Group one of the block pattern: a lazy run of one or more non-newline
    characters, shortest alternative first, each followed by the rest of the
    pattern; returns group one, group two and the text after the match. -/
def tryG1 (t : Str) : Option (Str × Str × Str) :=
  let d := t.takeWhile (fun c => c ≠ '\n')
  (altsAsc d.length).findSome? (fun m =>
    match tryNl (t.drop m) with
    | some (g2, rest) => some (t.take m, g2, rest)
    | none => none)

/-- Backtracking match of the two-line block pattern of scan_markdown_files
    (line 68) at the start of the given text: the repo literal, one or more
    whitespace characters, group one, optional whitespace, a newline,
    optional whitespace, the rev literal, one or more whitespace characters,
    group two. -/
def matchBlockAt (s : Str) : Option (Str × Str × Str) :=
  if repoLit.isPrefixOf s then
    let t := s.drop 5
    let w := t.takeWhile pyWS
    let r := t.dropWhile pyWS
    (altsDesc w.length).findSome? (fun k => tryG1 (w.drop k ++ r))
  else none

/-- Worker for finditer of the block pattern: try the pattern at each
    position; on a match emit the two groups and continue after the match,
    otherwise advance one character.  One unit of fuel per character
    position suffices. -/
def finditerAux : Nat → Str → List (Str × Str)
  | 0, _ => []
  | _ + 1, [] => []
  | fuel + 1, c :: rest0 =>
    (matchBlockAt (c :: rest0)).elim (finditerAux fuel rest0)
      (fun p => (p.1, p.2.1) :: finditerAux fuel p.2.2)

/-- Model of block_pattern.finditer over a document text, keeping the two
    captured groups of each non-overlapping match in text order. -/
def finditer (s : Str) : List (Str × Str) := finditerAux s.length s

/-- Model of scan_markdown_files (lines 59 to 79): the enumerated files are
    passed as pairs of path and content, and every match of the block
    pattern yields one usage record of path, normalized identity and
    revision token. -/
def scan_markdown_files (files : List (String × Str)) : List (String × Str × Str) :=
  files.flatMap (fun pc =>
    (finditer pc.2).map (fun g => (pc.1, normalize_repo_url (pyStrip g.1), pyStrip g.2)))

/-- One mismatch diagnostic printed by the reconciler: the exact form of
    main lines 102 to 105, or the fuzzy form of lines 119 to 122. -/
inductive Diag where
  | mismatch (file : String) (key guideRev configRev : Str)
  | fuzzy (file : String) (key cand guideRev configRev : Str)
deriving DecidableEq

/-- The suffix test of the fuzzy fallback (line 112), in the order the
    source writes it: the candidate is a suffix of the usage identity, or
    the usage identity is a suffix of the candidate. -/
def suffixRel (key c : Str) : Bool := c.isSuffixOf key || key.isSuffixOf c

/-- Python truthiness of an optional string: none and the empty string are
    falsy. -/
def pyTruthyOpt : Option Str → Bool
  | some (_ :: _) => true
  | _ => false

/-- The reconciler loop body of main (lines 97 to 127) for one usage
    record: the emitted diagnostics, the error increment and the warning
    increment.  Both truthiness tests of the source are kept: line 100
    tests the looked-up canonical revision, and line 116 tests the fuzzy
    candidate itself, so a candidate that is the empty string is treated
    like no candidate and only warns. -/
def processUsage (canon : List (Str × Str)) (u : String × Str × Str) :
    List Diag × Nat × Nat :=
  let file := u.1
  let key := u.2.1
  let rev := u.2.2
  let canonicalRev := lookupAL canon key
  if pyTruthyOpt canonicalRev then
    let crev := canonicalRev.getD []
    if rev ≠ crev then ((Diag.mismatch file key rev crev) :: [], 1, 0) else ([], 0, 0)
  else
    let possible := (canon.find? (fun kv => suffixRel key kv.1)).map Prod.fst
    if pyTruthyOpt possible then
      let cand := possible.getD []
      let crev := (lookupAL canon cand).getD []
      if rev ≠ crev then ((Diag.fuzzy file key cand rev crev) :: [], 1, 0) else ([], 0, 0)
    else ([], 0, 1)

/-- The whole reconciler loop: diagnostics in order, total errors, total
    warnings. -/
def reconcile (canon : List (Str × Str)) (usages : List (String × Str × Str)) :
    List Diag × Nat × Nat :=
  usages.foldl
    (fun acc u =>
      let step := processUsage canon u
      (acc.1 ++ step.1, acc.2.1 + step.2.1, acc.2.2 + step.2.2))
    ([], 0, 0)

/-- The canonical revision a usage identity resolves to, as the
    specification describes it: the exact map entry when the identity is a
    key, else the revision of the first fuzzy candidate in map order. -/
def resolvedRev (canon : List (Str × Str)) (key : Str) : Option Str :=
  match lookupAL canon key with
  | some crev => some crev
  | none =>
    match canon.find? (fun kv => suffixRel key kv.1) with
    | some kv => some kv.2
    | none => none

/-- Model of main: the config argument is none when the config file is
    missing; the result is the process exit status together with the
    mismatch diagnostics printed. -/
def runMain (config : Option Str) (files : List (String × Str)) : Nat × List Diag :=
  match config with
  | none => (1, [])
  | some content =>
    let canon := parse_pre_commit_config content
    if canon = [] then (1, [])
    else
      let out := reconcile canon (scan_markdown_files files)
      if out.2.1 = 0 then (0, out.1) else (1, out.1)

/-- Every character of the list is whitespace. -/
def IsWS (l : Str) : Prop := ∀ c ∈ l, pyWS c = true

/-- No character of the list is whitespace. -/
def NonWS (l : Str) : Prop := ∀ c ∈ l, pyWS c = false

/-- No character of the list is a newline. -/
def NonNl (l : Str) : Prop := ∀ c ∈ l, c ≠ '\n'

/-- A two-line block occurrence as the specification describes it: the repo
    literal, mandatory whitespace, a non-empty reference value free of line
    breaks, optional whitespace, one line break, optional leading
    whitespace, the rev literal, mandatory whitespace and a non-empty
    whitespace-free revision token. -/
def BlockOcc (b g1 g2 : Str) : Prop :=
  ∃ w1 t1 t2 w2,
    b = repoLit ++ w1 ++ g1 ++ t1 ++ '\n' :: (t2 ++ revLit ++ w2 ++ g2) ∧
    w1 ≠ [] ∧ IsWS w1 ∧ g1 ≠ [] ∧ NonNl g1 ∧ IsWS t1 ∧ IsWS t2 ∧
    w2 ≠ [] ∧ IsWS w2 ∧ g2 ≠ [] ∧ NonWS g2

/-- No block occurrence begins at the start of the given text. -/
def NoBlockAt (s : Str) : Prop :=
  ¬ ∃ b g1 g2 r, s = b ++ r ∧ BlockOcc b g1 g2

/-- The scanner result relation: the text decomposes, left to right, into
    skipped characters at which no block occurrence begins and consumed
    block occurrences, one per emitted pair of groups, in text order and
    without overlap. -/
inductive Finds : Str → List (Str × Str) → Prop
  | nil : Finds [] []
  | skip (c : Char) (s : Str) (ms : List (Str × Str)) :
      NoBlockAt (c :: s) → Finds s ms → Finds (c :: s) ms
  | found (b g1 g2 r : Str) (ms : List (Str × Str)) :
      BlockOcc b g1 g2 → Finds r ms → Finds (b ++ r) ((g1, g2) :: ms)

/- Helper lemmas about the string primitives. -/

theorem takeWhile_append_all {p : Char → Bool} {a : Str} (b : Str)
    (h : ∀ c ∈ a, p c = true) : (a ++ b).takeWhile p = a ++ b.takeWhile p := by
  induction a with
  | nil => simp
  | cons x xs ih =>
    simp only [List.cons_append, List.takeWhile_cons, h x (List.mem_cons_self x xs)]
    simpa using ih (fun c hc => h c (List.mem_cons_of_mem x hc))

theorem dropWhile_append_all {p : Char → Bool} {a : Str} (b : Str)
    (h : ∀ c ∈ a, p c = true) : (a ++ b).dropWhile p = b.dropWhile p := by
  induction a with
  | nil => simp
  | cons x xs ih =>
    simp only [List.cons_append, List.dropWhile_cons, h x (List.mem_cons_self x xs)]
    simpa using ih (fun c hc => h c (List.mem_cons_of_mem x hc))

theorem dropWhile_eq_self_of_all {p : Char → Bool} {l : Str}
    (h : ∀ c ∈ l, p c = false) : l.dropWhile p = l := by
  cases l with
  | nil => rfl
  | cons x xs => simp [List.dropWhile_cons, h x (List.mem_cons_self x xs)]

theorem takeWhile_eq_nil_of_head {p : Char → Bool} {x : Char} {xs : Str}
    (h : p x = false) : (x :: xs).takeWhile p = [] := by
  simp [List.takeWhile_cons, h]

theorem pyStrip_of_nonws {l : Str} (h : NonWS l) : pyStrip l = l := by
  unfold pyStrip
  rw [dropWhile_eq_self_of_all h, dropWhile_eq_self_of_all, List.reverse_reverse]
  intro c hc
  exact h c (List.mem_reverse.mp hc)

theorem take_of_le_takeWhile {p : Char → Bool} {l : Str} {n : Nat}
    (h : n ≤ (l.takeWhile p).length) : l.take n = (l.takeWhile p).take n := by
  obtain ⟨t, ht⟩ := List.takeWhile_prefix (l := l) p
  conv_lhs => rw [← ht]
  rw [List.take_append_of_le_length h]

theorem mem_altsDesc {n k : Nat} : k ∈ altsDesc n ↔ 1 ≤ k ∧ k ≤ n := by
  simp only [altsDesc, List.mem_map, List.mem_reverse, List.mem_range]
  constructor
  · rintro ⟨a, ha, rfl⟩; omega
  · rintro ⟨h1, h2⟩; exact ⟨k - 1, by omega, by omega⟩

theorem mem_altsDesc0 {n k : Nat} : k ∈ altsDesc0 n ↔ k ≤ n := by
  simp only [altsDesc0, List.mem_reverse, List.mem_range]; omega

theorem mem_altsAsc {n k : Nat} : k ∈ altsAsc n ↔ 1 ≤ k ∧ k ≤ n := by
  simp only [altsAsc, List.mem_map, List.mem_range]
  constructor
  · rintro ⟨a, ha, rfl⟩; omega
  · rintro ⟨h1, h2⟩; exact ⟨k - 1, by omega, by omega⟩

theorem findSome?_isSome_of_mem {α β : Type} {f : α → Option β} {l : List α} {a : α}
    (ha : a ∈ l) (h : (f a).isSome) : (l.findSome? f).isSome := by
  by_contra hc
  rw [Option.not_isSome_iff_eq_none, List.findSome?_eq_none_iff] at hc
  rw [hc a ha] at h
  simp at h

theorem searchAux_ex {f : Str → Option Str} :
    ∀ {s g}, searchAux f s = some g → ∃ t, f t = some g := by
  intro s
  induction s with
  | nil => intro g h; exact ⟨[], h⟩
  | cons c rest ih =>
    intro g h
    unfold searchAux at h
    cases hf : f (c :: rest) with
    | some g' => rw [hf] at h; exact ⟨c :: rest, hf.trans h⟩
    | none => rw [hf] at h; exact ih h

/- Lemmas about the normalization helpers. -/

theorem afterSepAux_gh_slash :
    ∀ fuel : Nat, ∀ s r : Str, afterSepAux ghLit fuel s = some r → '/' ∈ s := by
  intro fuel
  induction fuel with
  | zero => intro s r h; simp [afterSepAux] at h
  | succ n ih =>
    intro s r h
    rcases s with _ | ⟨c, rest⟩
    · simp [afterSepAux] at h
    · by_cases hp : ghLit.isPrefixOf (c :: rest) = true
      · obtain ⟨t, ht⟩ := List.isPrefixOf_iff_prefix.mp hp
        rw [← ht]
        exact List.mem_append.mpr (Or.inl (by decide))
      · rw [afterSepAux, if_neg hp] at h
        exact List.mem_cons_of_mem c (ih rest r h)

theorem afterGithub_none_of_no_slash {s : Str} (h : '/' ∉ s) : afterGithub s = none := by
  cases hg : afterGithub s with
  | none => rfl
  | some r => exact absurd (afterSepAux_gh_slash s.length s r hg) h

theorem afterLastSlash_aux (s : Str) :
    ∀ acc : Str, (∀ c ∈ s, c ≠ '/') →
      s.foldl (fun acc c => if c = '/' then [] else acc ++ [c]) acc = acc ++ s := by
  induction s with
  | nil => intro acc _; simp
  | cons x xs ih =>
    intro acc h
    simp only [List.foldl_cons, if_neg (h x (List.mem_cons_self x xs))]
    rw [ih (acc ++ [x]) (fun c hc => h c (List.mem_cons_of_mem x hc))]
    simp

theorem afterLastSlash_of_no_slash {s : Str} (h : '/' ∉ s) : afterLastSlash s = s := by
  unfold afterLastSlash
  rw [afterLastSlash_aux s [] (fun c hc hcs => h (hcs ▸ hc))]
  simp

theorem dropGit_cons_of_ne {c : Char} {rest : Str}
    (h : ¬ gitLit.isPrefixOf (c :: rest) = true) :
    dropGit (c :: rest) = c :: dropGit rest := by
  conv_lhs => rw [dropGit.eq_def]
  split
  · rename_i rest' heq
    exact absurd ( List.isPrefixOf_iff_prefix.mpr ⟨rest', by rw [heq]; rfl⟩) h
  · rename_i c' rest' hnc heq
    injection heq with h1 h2
    subst h1
    subst h2
    rfl
  · rename_i x heq
    exact absurd heq (by simp)

theorem pyRemoveAux_git_eq_dropGit :
    ∀ fuel : Nat, ∀ s : Str, s.length ≤ fuel → pyRemoveAux gitLit fuel s = dropGit s := by
  intro fuel
  induction fuel with
  | zero =>
    intro s hs
    have : s = [] := List.length_eq_zero.mp (Nat.le_zero.mp hs)
    subst this; rfl
  | succ n ih =>
    intro s hs
    rcases s with _ | ⟨c, rest⟩
    · rfl
    · by_cases hp : gitLit.isPrefixOf (c :: rest) = true
      · obtain ⟨t, ht⟩ := List.isPrefixOf_iff_prefix.mp hp
        have hshape : c :: rest = '.' :: 'g' :: 'i' :: 't' :: t := by
          rw [← ht]; rfl
        rw [hshape]
        have hlen : t.length ≤ n := by
          rw [hshape] at hs
          simp at hs
          omega
        calc pyRemoveAux gitLit (n + 1) ('.' :: 'g' :: 'i' :: 't' :: t)
            = pyRemoveAux gitLit n t := by
              rw [pyRemoveAux]
              rw [if_pos ( List.isPrefixOf_iff_prefix.mpr ⟨t, by simp [gitLit]⟩)]
              simp [gitLit]
          _ = dropGit t := ih t hlen
          _ = dropGit ('.' :: 'g' :: 'i' :: 't' :: t) := by
              conv_rhs => rw [dropGit.eq_def]
              rfl
      · rw [pyRemoveAux, if_neg hp, dropGit_cons_of_ne hp]
        have hlen : rest.length ≤ n := by simp at hs; omega
        rw [ih rest hlen]

theorem pyRemove_git_eq_dropGit (s : Str) : pyRemove gitLit s = dropGit s :=
  pyRemoveAux_git_eq_dropGit s.length s (Nat.le_refl _)

/- Claim C1.  The claim as stated, that normalization is idempotent on every
   reference string, fails on the code: normalizing a full hosting URL keeps
   the user/repo pair, and normalizing that again keeps only the repo part.
   The amended claim: normalization is idempotent on every reference whose
   normalized form is already whitespace-stripped, free of the
   version-control suffix, and free of the path separator. -/

/-- Claim C1, counterexample: on the reference
    https colon slash slash github.com slash user slash repo the first
    normalization gives user slash repo and the second gives repo, so
    normalization is not idempotent as claimed. -/
theorem claim_C1_counterexample :
    normalize_repo_url (normalize_repo_url (("https://github.com/user/repo").toList)) ≠
      normalize_repo_url (("https://github.com/user/repo").toList) := by decide

/-- Claim C1, amended: normalization is idempotent on every reference string
    whose normalized form is unchanged by whitespace stripping, unchanged by
    removal of the version-control suffix, and free of the path
    separator. -/
theorem claim_C1 (r : Str)
    (h1 : pyStrip (normalize_repo_url r) = normalize_repo_url r)
    (h2 : pyRemove gitLit (normalize_repo_url r) = normalize_repo_url r)
    (h3 : '/' ∉ normalize_repo_url r) :
    normalize_repo_url (normalize_repo_url r) = normalize_repo_url r := by
  conv_lhs => rw [normalize_repo_url]
  rw [h1, h2, afterGithub_none_of_no_slash h3]
  exact afterLastSlash_of_no_slash h3

/-- Claim C1, witness: the amended theorem applied to the reference repo,
    whose normalized form satisfies all three side conditions. -/
theorem claim_C1_witness :
    normalize_repo_url (normalize_repo_url (("repo").toList)) =
      normalize_repo_url (("repo").toList) :=
  claim_C1 (("repo").toList) (by decide) (by decide) (by decide)

/- Claim C2.  The claim words the reference definition with a trailing-only
   version-control suffix removal and no whitespace handling; the code
   strips surrounding whitespace first and deletes every occurrence of the
   suffix, not only a trailing one. -/

/-- Claim C2, counterexample: on the reference consisting of a space, the
    letter a, the version-control suffix in the middle and the letter b, the
    code normalizes to ab while the claimed reference definition keeps the
    string unchanged. -/
theorem claim_C2_counterexample :
    normalize_repo_url ((" a.gitb").toList) ≠ normalize_claimed ((" a.gitb").toList) := by
  decide

/-- Claim C2, amended: normalization first strips surrounding whitespace,
    then removes every occurrence of the version-control suffix scanning
    left to right without overlap, then returns the text after the hosting
    marker when the marker is present and the final path segment
    otherwise. -/
theorem claim_C2 (url : Str) : normalize_repo_url url = normalize_amended url := by
  unfold normalize_repo_url normalize_amended
  rw [pyRemove_git_eq_dropGit]

/- Lemmas about the association-list model of the Python dict. -/

theorem lookupAL_insert_self (m : List (Str × Str)) (k v : Str) :
    lookupAL (insertAL m k v) k = some v := by
  induction m with
  | nil => simp [insertAL, lookupAL]
  | cons kv rest ih =>
    rcases kv with ⟨k', v'⟩
    by_cases h : k' = k
    · simp [insertAL, lookupAL, h]
    · simp [insertAL, lookupAL, h, ih]

theorem mem_keys_insertAL_self (m : List (Str × Str)) (k v : Str) :
    k ∈ (insertAL m k v).map Prod.fst := by
  induction m with
  | nil => simp [insertAL]
  | cons kv rest ih =>
    rcases kv with ⟨k', v'⟩
    by_cases h : k' = k
    · simp [insertAL, h]
    · simp only [insertAL, if_neg h, List.map_cons, List.mem_cons]
      exact Or.inr ih

theorem keys_insertAL_of_mem {m : List (Str × Str)} {k : Str} (v : Str)
    (h : k ∈ m.map Prod.fst) : (insertAL m k v).map Prod.fst = m.map Prod.fst := by
  induction m with
  | nil => simp at h
  | cons kv rest ih =>
    rcases kv with ⟨k', v'⟩
    by_cases hk : k' = k
    · simp [insertAL, hk]
    · have hr : k ∈ rest.map Prod.fst := by
        simp only [List.map_cons, List.mem_cons] at h
        rcases h with h1 | h1
        · exact absurd h1.symm hk
        · exact h1
      simp [insertAL, hk, ih hr]

theorem keys_insertAL_of_not_mem {m : List (Str × Str)} {k : Str} (v : Str)
    (h : k ∉ m.map Prod.fst) :
    (insertAL m k v).map Prod.fst = m.map Prod.fst ++ (k :: []) := by
  induction m with
  | nil => simp [insertAL]
  | cons kv rest ih =>
    rcases kv with ⟨k', v'⟩
    have hk : k' ≠ k := by
      intro hkk
      exact h (by simp [hkk])
    have hr : k ∉ rest.map Prod.fst := fun hm => h (by simp [hm])
    simp [insertAL, hk, ih hr]

theorem length_insertAL_of_mem {m : List (Str × Str)} {k : Str} (v : Str)
    (h : k ∈ m.map Prod.fst) : (insertAL m k v).length = m.length := by
  have h1 := congrArg List.length (keys_insertAL_of_mem v h)
  simpa using h1

theorem nodup_keys_insertAL {m : List (Str × Str)} {k v : Str}
    (h : (m.map Prod.fst).Nodup) : ((insertAL m k v).map Prod.fst).Nodup := by
  by_cases hk : k ∈ m.map Prod.fst
  · rw [keys_insertAL_of_mem v hk]; exact h
  · rw [keys_insertAL_of_not_mem v hk]
    rw [List.nodup_append]
    exact ⟨h, List.nodup_singleton k, by simpa using hk⟩

theorem mem_insertAL {m : List (Str × Str)} {k v : Str} {kv : Str × Str}
    (h : kv ∈ insertAL m k v) : kv ∈ m ∨ kv = (k, v) := by
  induction m with
  | nil => simp [insertAL] at h; exact Or.inr h
  | cons kv' rest ih =>
    rcases kv' with ⟨k', v'⟩
    by_cases hk : k' = k
    · simp only [insertAL, if_pos hk, List.mem_cons] at h
      rcases h with h | h
      · exact Or.inr (by rw [h, hk])
      · exact Or.inl (List.mem_cons_of_mem _ h)
    · simp only [insertAL, if_neg hk, List.mem_cons] at h
      rcases h with h | h
      · exact Or.inl (by simp [h])
      · rcases ih h with h1 | h1
        · exact Or.inl (List.mem_cons_of_mem _ h1)
        · exact Or.inr h1

theorem lookupAL_eq_none_iff {m : List (Str × Str)} {k : Str} :
    lookupAL m k = none ↔ k ∉ m.map Prod.fst := by
  induction m with
  | nil => simp [lookupAL]
  | cons kv rest ih =>
    rcases kv with ⟨k', v'⟩
    by_cases h : k' = k
    · subst h; simp [lookupAL]
    · simp only [lookupAL, if_neg h, List.map_cons, List.mem_cons]
      rw [ih]
      constructor
      · intro hn hmem
        rcases hmem with h1 | h1
        · exact h h1.symm
        · exact hn h1
      · intro hn h1
        exact hn (Or.inr h1)

theorem lookupAL_mem {m : List (Str × Str)} {k v : Str}
    (h : lookupAL m k = some v) : (k, v) ∈ m := by
  induction m with
  | nil => simp [lookupAL] at h
  | cons kv rest ih =>
    rcases kv with ⟨k', v'⟩
    by_cases hk : k' = k
    · simp only [lookupAL, if_pos hk] at h
      obtain rfl : v' = v := by injection h
      simp [hk]
    · simp only [lookupAL, if_neg hk] at h
      exact List.mem_cons_of_mem _ (ih h)

theorem lookupAL_of_mem_nodup {m : List (Str × Str)} {k v : Str}
    (hn : (m.map Prod.fst).Nodup) (h : (k, v) ∈ m) : lookupAL m k = some v := by
  induction m with
  | nil => simp at h
  | cons kv rest ih =>
    rcases kv with ⟨k', v'⟩
    rcases List.mem_cons.mp h with h1 | h1
    · injection h1 with h2 h3
      subst h2
      subst h3
      simp [lookupAL]
    · have hk : k' ≠ k := by
        intro hkk
        subst hkk
        have : k' ∈ rest.map Prod.fst := List.mem_map.mpr ⟨(k', v), h1, rfl⟩
        exact (List.nodup_cons.mp (by simpa using hn)).1 this
      have hn' : (rest.map Prod.fst).Nodup := (List.nodup_cons.mp (by simpa using hn)).2
      simp [lookupAL, hk, ih hn' h1]

/- Properties of the rev pattern groups: non-empty and whitespace-free. -/

theorem take_props_of_le_takeWhile {p : Char → Bool} {u : Str} {m : Nat}
    (h1 : 1 ≤ m) (h2 : m ≤ (u.takeWhile p).length) :
    u.take m ≠ [] ∧ ∀ c ∈ u.take m, p c = true := by
  have hlu : (u.takeWhile p).length ≤ u.length := ( List.takeWhile_prefix (l := u) p).length_le
  have hg : u.take m = (u.takeWhile p).take m := take_of_le_takeWhile h2
  constructor
  · intro hnil
    have := congrArg List.length hnil
    simp only [List.length_take, List.length_nil] at this
    omega
  · intro c hc
    rw [hg] at hc
    exact List.mem_takeWhile_imp (List.take_subset m _ hc)

theorem revTail_props {t g : Str} (h : revTail t = some g) : g ≠ [] ∧ NonWS g := by
  simp only [revTail] at h
  obtain ⟨k, hk, h1⟩ := List.exists_of_findSome?_eq_some h
  obtain ⟨m, hm, h2⟩ := List.exists_of_findSome?_eq_some h1
  obtain rfl : _ = g := by injection h2
  rw [mem_altsDesc] at hm
  obtain ⟨hne, hall⟩ := take_props_of_le_takeWhile hm.1 hm.2
  refine ⟨hne, fun c hc => ?_⟩
  have := hall c hc
  simpa using this

theorem searchRevLine_props {l t : Str} (h : searchRevLine l = some t) :
    t ≠ [] ∧ NonWS t := by
  obtain ⟨s, hf⟩ := searchAux_ex h
  by_cases hp : revLit.isPrefixOf s = true
  · rw [if_pos hp] at hf
    exact revTail_props hf
  · rw [if_neg hp] at hf
    exact absurd hf (by simp)

/- Invariants of the config parse fold. -/

theorem parseStep_good {st : Str × List (Str × Str)} {line : Str}
    (h : ∀ kv ∈ st.2, kv.2 ≠ [] ∧ NonWS kv.2) :
    ∀ kv ∈ (parseStep st line).2, kv.2 ≠ [] ∧ NonWS kv.2 := by
  intro kv hkv
  simp only [parseStep] at hkv
  split at hkv
  · exact h kv hkv
  · split at hkv
    · split at hkv
      · rename_i t heq
        rcases mem_insertAL hkv with h1 | h1
        · exact h kv h1
        · rw [h1]
          exact searchRevLine_props heq
      · exact h kv hkv
    · exact h kv hkv

theorem parseStep_nodup {st : Str × List (Str × Str)} {line : Str}
    (h : (st.2.map Prod.fst).Nodup) :
    (((parseStep st line).2).map Prod.fst).Nodup := by
  simp only [parseStep]
  split
  · exact h
  · split
    · split
      · exact nodup_keys_insertAL h
      · exact h
    · exact h

theorem parse_fold_good (lines : List Str) :
    ∀ st : Str × List (Str × Str),
      (∀ kv ∈ st.2, kv.2 ≠ [] ∧ NonWS kv.2) →
      ∀ kv ∈ (lines.foldl parseStep st).2, kv.2 ≠ [] ∧ NonWS kv.2 := by
  induction lines with
  | nil => intro st h; simpa using h
  | cons line rest ih =>
    intro st h
    exact ih (parseStep st line) (parseStep_good h)

theorem parse_fold_nodup (lines : List Str) :
    ∀ st : Str × List (Str × Str),
      (st.2.map Prod.fst).Nodup →
      (((lines.foldl parseStep st).2).map Prod.fst).Nodup := by
  induction lines with
  | nil => intro st h; simpa using h
  | cons line rest ih =>
    intro st h
    exact ih (parseStep st line) (parseStep_nodup h)

theorem parse_good (content : Str) :
    ∀ kv ∈ parse_pre_commit_config content, kv.2 ≠ [] ∧ NonWS kv.2 :=
  parse_fold_good (pySplitlines content) ([], []) (by simp)

theorem parse_nodup (content : Str) :
    ((parse_pre_commit_config content).map Prod.fst).Nodup :=
  parse_fold_nodup (pySplitlines content) ([], []) (by simp)

theorem parseStep_keys {st : Str × List (Str × Str)} {line : Str}
    (h : ∀ kv ∈ st.2, kv.1 ≠ []) :
    ∀ kv ∈ (parseStep st line).2, kv.1 ≠ [] := by
  intro kv hkv
  simp only [parseStep] at hkv
  split at hkv
  · exact h kv hkv
  · split at hkv
    · rename_i hpend
      split at hkv
      · rcases mem_insertAL hkv with h1 | h1
        · exact h kv h1
        · rw [h1]
          exact hpend
      · exact h kv hkv
    · exact h kv hkv

theorem parse_fold_keys (lines : List Str) :
    ∀ st : Str × List (Str × Str),
      (∀ kv ∈ st.2, kv.1 ≠ []) →
      ∀ kv ∈ (lines.foldl parseStep st).2, kv.1 ≠ [] := by
  induction lines with
  | nil => intro st h; simpa using h
  | cons line rest ih =>
    intro st h
    exact ih (parseStep st line) (parseStep_keys h)

theorem parse_keys_nonempty (content : Str) :
    ∀ kv ∈ parse_pre_commit_config content, kv.1 ≠ [] :=
  parse_fold_keys (pySplitlines content) ([], []) (by simp)

theorem pyTruthyOpt_some_ne {v : Str} (h : v ≠ []) : pyTruthyOpt (some v) = true := by
  rcases v with _ | ⟨c, cs⟩
  · exact absurd rfl h
  · rfl

/- Claim C6: a revision line binds only when a pending identity is set, and
   binding clears the pending identity; a reference line followed by two
   revision lines binds only the first revision. -/

/-- Claim C6: on any parser state, a line that matches the rev pattern and
    not the repo pattern binds its token to the pending identity and clears
    it when the pending identity is set, and changes nothing otherwise; in
    particular a config of one reference line and two revision lines binds
    only the first revision. -/
theorem claim_C6 :
    (∀ st : Str × List (Str × Str), ∀ line t : Str,
        searchRepoLine (pyStrip line) = none →
        searchRevLine (pyStrip line) = some t →
        parseStep st line =
          (if st.1 ≠ [] then (([] : Str), insertAL st.2 st.1 t) else st))
    ∧ parse_pre_commit_config (("repo: https://github.com/a/b\nrev: 1.0\nrev: 2.0").toList) =
        (((("a/b").toList : Str), (("1.0").toList : Str)) :: []) := by
  constructor
  · intro st line t h1 h2
    simp only [parseStep, h1, h2]
  · decide

/-- Claim C6, witness: the general part applied to an empty-map state with
    pending identity x and the line rev colon space seven. -/
theorem claim_C6_witness :
    parseStep ((("x").toList : Str), ([] : List (Str × Str))) (("rev: 7").toList) =
      (([] : Str), insertAL [] (("x").toList) (("7").toList)) := by
  have h := claim_C6.1 ((("x").toList : Str), ([] : List (Str × Str))) (("rev: 7").toList)
    (("7").toList) (by decide) (by decide)
  exact h.trans (by decide)

/- Claim C8: a reference line never touches the map, it only overwrites the
   pending identity, so a dangling reference line contributes nothing. -/

/-- Claim C8: on any parser state, a line matching the repo pattern leaves
    the map unchanged and replaces the pending identity with the normalized
    group; in particular a config with two reference lines and one final
    revision line binds only the second reference. -/
theorem claim_C8 :
    (∀ st : Str × List (Str × Str), ∀ line g : Str,
        searchRepoLine (pyStrip line) = some g →
        parseStep st line = (normalize_repo_url g, st.2))
    ∧ parse_pre_commit_config
        (("repo: https://github.com/a/b\nrepo: https://github.com/c/d\nrev: 1.0").toList) =
        (((("c/d").toList : Str), (("1.0").toList : Str)) :: []) := by
  constructor
  · intro st line g h
    simp only [parseStep, h]
  · decide

/-- Claim C8, witness: the general part applied to the empty state and a
    reference line. -/
theorem claim_C8_witness :
    parseStep (([] : Str), ([] : List (Str × Str))) (("repo: https://github.com/q/r").toList) =
      (normalize_repo_url (("https://github.com/q/r").toList), ([] : List (Str × Str))) :=
  claim_C8.1 (([] : Str), ([] : List (Str × Str))) (("repo: https://github.com/q/r").toList)
    (("https://github.com/q/r").toList) (by decide)

/- Claim C9: a repeated identity keeps one entry whose value is the last
   revision, since dict insertion overwrites in place. -/

/-- Claim C9: inserting the same key twice leaves the map size of the first
    insertion and the lookup returns the second value; in particular a
    config repeating one reference with two different revisions parses to a
    single entry holding the last revision. -/
theorem claim_C9 :
    (∀ m : List (Str × Str), ∀ k v₁ v₂ : Str,
        lookupAL (insertAL (insertAL m k v₁) k v₂) k = some v₂ ∧
        (insertAL (insertAL m k v₁) k v₂).length = (insertAL m k v₁).length)
    ∧ parse_pre_commit_config
        (("repo: https://github.com/a/b\nrev: 1.0\nrepo: https://github.com/a/b\nrev: 2.0").toList) =
        (((("a/b").toList : Str), (("2.0").toList : Str)) :: []) := by
  constructor
  · intro m k v₁ v₂
    exact ⟨lookupAL_insert_self _ k v₂,
      length_insertAL_of_mem v₂ (mem_keys_insertAL_self m k v₁)⟩
  · decide

/- Soundness and completeness of the block pattern matcher, piece by
   piece.  Soundness: a successful match decomposes the input into the
   shape of the pattern.  Completeness: an input of that shape always
   matches. -/

theorem run_split {p : Char → Bool} {a b : Str} (ha : ∀ c ∈ a, p c = true)
    (hb : b = [] ∨ ∃ x xs, b = x :: xs ∧ p x = false) :
    (a ++ b).takeWhile p = a ∧ (a ++ b).dropWhile p = b := by
  rcases hb with rfl | ⟨x, xs, rfl, hx⟩
  · rw [takeWhile_append_all [] ha, dropWhile_append_all [] ha]
    simp
  · rw [takeWhile_append_all (x :: xs) ha, dropWhile_append_all (x :: xs) ha]
    constructor
    · rw [takeWhile_eq_nil_of_head hx]
      simp
    · simp [List.dropWhile_cons, hx]

theorem append_take_drop_run {p : Char → Bool} (t : Str) (k : Nat) :
    t = (t.takeWhile p).take k ++ ((t.takeWhile p).drop k ++ t.dropWhile p) := by
  conv_lhs => rw [← List.takeWhile_append_dropWhile (p := p) (l := t)]
  conv_lhs => rw [← List.take_append_drop k (t.takeWhile p)]
  rw [List.append_assoc]

theorem takeWhile_take_all {p : Char → Bool} (t : Str) (k : Nat) :
    ∀ c ∈ (t.takeWhile p).take k, p c = true :=
  fun c hc => List.mem_takeWhile_imp (List.take_subset _ _ hc)

theorem take_run_ne_nil {p : Char → Bool} {t : Str} {k : Nat}
    (h1 : 1 ≤ k) (h2 : k ≤ (t.takeWhile p).length) : (t.takeWhile p).take k ≠ [] := by
  intro hnil
  have := congrArg List.length hnil
  simp only [List.length_take, List.length_nil] at this
  omega

theorem tryG2_sound {t g2 rest : Str} (h : tryG2 t = some (g2, rest)) :
    ∃ w, IsWS w ∧ w ≠ [] ∧ g2 ≠ [] ∧ NonWS g2 ∧ t = w ++ (g2 ++ rest) := by
  simp only [tryG2] at h
  obtain ⟨k, hk, h1⟩ := List.exists_of_findSome?_eq_some h
  obtain ⟨m, hm, h2⟩ := List.exists_of_findSome?_eq_some h1
  injection h2 with h3
  injection h3 with hg hrest
  subst hg
  subst hrest
  rw [mem_altsDesc] at hk hm
  refine ⟨(t.takeWhile pyWS).take k, takeWhile_take_all t k,
    take_run_ne_nil hk.1 hk.2, ?_, ?_, ?_⟩
  · exact (take_props_of_le_takeWhile hm.1 hm.2).1
  · intro c hc
    have := (take_props_of_le_takeWhile hm.1 hm.2).2 c hc
    simpa using this
  · rw [List.take_append_drop]
    exact append_take_drop_run t k

theorem tryG2_isSome {w g2 tail : Str} (hw : IsWS w) (hwne : w ≠ [])
    (hg : g2 ≠ []) (hgn : NonWS g2) : (tryG2 (w ++ (g2 ++ tail))).isSome := by
  obtain ⟨c, g2t, rfl⟩ : ∃ c g2t, g2 = c :: g2t := by
    rcases g2 with _ | ⟨c, g2t⟩
    · exact absurd rfl hg
    · exact ⟨c, g2t, rfl⟩
  obtain ⟨htw, hdw⟩ := run_split (a := w) (b := (c :: g2t) ++ tail) hw
    (Or.inr ⟨c, g2t ++ tail, by simp, hgn c (by simp)⟩)
  simp only [tryG2]
  apply findSome?_isSome_of_mem (a := w.length)
  · rw [mem_altsDesc, htw]
    refine ⟨?_, Nat.le_refl _⟩
    rcases w with _ | _
    · exact absurd rfl hwne
    · simp
  · rw [htw, hdw, List.drop_length, List.nil_append]
    have hg2run : ((c :: g2t) ++ tail).takeWhile (fun c => !(pyWS c)) =
        (c :: g2t) ++ tail.takeWhile (fun c => !(pyWS c)) := by
      apply takeWhile_append_all
      intro x hx
      simp [hgn x hx]
    apply findSome?_isSome_of_mem (a := (c :: g2t).length)
    · rw [mem_altsDesc, hg2run]
      simp
    · simp

theorem tryRev_sound {t g2 rest : Str} (h : tryRev t = some (g2, rest)) :
    ∃ t2 w2, IsWS t2 ∧ IsWS w2 ∧ w2 ≠ [] ∧ g2 ≠ [] ∧ NonWS g2 ∧
      t = t2 ++ (revLit ++ (w2 ++ (g2 ++ rest))) := by
  simp only [tryRev] at h
  obtain ⟨k, hk, h1⟩ := List.exists_of_findSome?_eq_some h
  rw [mem_altsDesc0] at hk
  split at h1
  case isTrue hpre =>
    obtain ⟨u', hu⟩ := List.isPrefixOf_iff_prefix.mp hpre
    have hdrop : ((t.takeWhile pyWS).drop k ++ t.dropWhile pyWS).drop 4 = u' := by
      rw [← hu]
      have h4 : (4 : Nat) = revLit.length := rfl
      rw [h4, List.drop_left]
    rw [hdrop] at h1
    obtain ⟨w2, hw2, hw2ne, hg2ne, hg2n, hu'⟩ := tryG2_sound h1
    refine ⟨(t.takeWhile pyWS).take k, w2, takeWhile_take_all t k, hw2, hw2ne, hg2ne, hg2n, ?_⟩
    conv_lhs => rw [append_take_drop_run (p := pyWS) t k]
    rw [← hu, hu']
  case isFalse => exact absurd h1 (by simp)

theorem tryRev_isSome {t2 w2 g2 tail : Str} (ht2 : IsWS t2) (hw2 : IsWS w2)
    (hw2ne : w2 ≠ []) (hg : g2 ≠ []) (hgn : NonWS g2) :
    (tryRev (t2 ++ (revLit ++ (w2 ++ (g2 ++ tail))))).isSome := by
  obtain ⟨htw, hdw⟩ := run_split (a := t2) (b := revLit ++ (w2 ++ (g2 ++ tail))) ht2
    (Or.inr ⟨'r', ('e' :: 'v' :: ':' :: []) ++ (w2 ++ (g2 ++ tail)), by simp [revLit], by decide⟩)
  simp only [tryRev]
  apply findSome?_isSome_of_mem (a := t2.length)
  · rw [mem_altsDesc0, htw]
  · rw [htw, hdw, List.drop_length, List.nil_append]
    rw [if_pos ( List.isPrefixOf_iff_prefix.mpr ⟨w2 ++ (g2 ++ tail), by simp [revLit]⟩)]
    have h4 : (revLit ++ (w2 ++ (g2 ++ tail))).drop 4 = w2 ++ (g2 ++ tail) := by
      have h4' : (4 : Nat) = revLit.length := rfl
      rw [h4', List.drop_left]
    rw [h4]
    exact tryG2_isSome hw2 hw2ne hg hgn

theorem tryNl_sound {t g2 rest : Str} (h : tryNl t = some (g2, rest)) :
    ∃ t1 t2 w2, IsWS t1 ∧ IsWS t2 ∧ IsWS w2 ∧ w2 ≠ [] ∧ g2 ≠ [] ∧ NonWS g2 ∧
      t = t1 ++ ('\n' :: (t2 ++ (revLit ++ (w2 ++ (g2 ++ rest))))) := by
  simp only [tryNl] at h
  obtain ⟨k, hk, h1⟩ := List.exists_of_findSome?_eq_some h
  rw [mem_altsDesc0] at hk
  split at h1
  case h_1 u heq =>
    obtain ⟨t2, w2, ht2, hw2, hw2ne, hg2ne, hg2n, hu⟩ := tryRev_sound h1
    refine ⟨(t.takeWhile pyWS).take k, t2, w2, takeWhile_take_all t k, ht2, hw2, hw2ne,
      hg2ne, hg2n, ?_⟩
    conv_lhs => rw [append_take_drop_run (p := pyWS) t k]
    rw [heq, hu]
  case h_2 => exact absurd h1 (by simp)

theorem tryNl_isSome {t1 t2 w2 g2 tail : Str} (ht1 : IsWS t1) (ht2 : IsWS t2)
    (hw2 : IsWS w2) (hw2ne : w2 ≠ []) (hg : g2 ≠ []) (hgn : NonWS g2) :
    (tryNl (t1 ++ ('\n' :: (t2 ++ (revLit ++ (w2 ++ (g2 ++ tail))))))).isSome := by
  set R : Str := t2 ++ (revLit ++ (w2 ++ (g2 ++ tail))) with hR
  have htw : (t1 ++ ('\n' :: R)).takeWhile pyWS = t1 ++ ('\n' :: R).takeWhile pyWS :=
    takeWhile_append_all _ ht1
  have hdw : (t1 ++ ('\n' :: R)).dropWhile pyWS = ('\n' :: R).dropWhile pyWS :=
    dropWhile_append_all _ ht1
  simp only [tryNl]
  apply findSome?_isSome_of_mem (a := t1.length)
  · rw [mem_altsDesc0, htw]
    simp
  · have hcomb : ((t1 ++ ('\n' :: R)).takeWhile pyWS).drop t1.length ++
        (t1 ++ ('\n' :: R)).dropWhile pyWS = '\n' :: R := by
      rw [htw, hdw, List.drop_left, List.takeWhile_append_dropWhile]
    rw [hcomb]
    have := @tryRev_isSome t2 w2 g2 tail ht2 hw2 hw2ne hg hgn
    rw [← hR] at this
    exact this

theorem tryG1_sound {t g1 g2 rest : Str} (h : tryG1 t = some (g1, g2, rest)) :
    g1 ≠ [] ∧ NonNl g1 ∧
    ∃ t1 t2 w2, IsWS t1 ∧ IsWS t2 ∧ IsWS w2 ∧ w2 ≠ [] ∧ g2 ≠ [] ∧ NonWS g2 ∧
      t = g1 ++ (t1 ++ ('\n' :: (t2 ++ (revLit ++ (w2 ++ (g2 ++ rest)))))) := by
  simp only [tryG1] at h
  obtain ⟨m, hm, h1⟩ := List.exists_of_findSome?_eq_some h
  rw [mem_altsAsc] at hm
  split at h1
  case h_1 p g2' rest' heq =>
    injection h1 with h2
    injection h2 with hg1 h3
    injection h3 with hg2 hrest
    subst hg1
    subst hg2
    subst hrest
    obtain ⟨hne, hall⟩ := take_props_of_le_takeWhile (p := fun c => c ≠ '\n') hm.1 hm.2
    obtain ⟨t1, t2, w2, ht1, ht2, hw2, hw2ne, hg2ne, hg2n, hu⟩ := tryNl_sound heq
    refine ⟨hne, ?_, t1, t2, w2, ht1, ht2, hw2, hw2ne, hg2ne, hg2n, ?_⟩
    · intro c hc
      have := hall c hc
      simpa using this
    · conv_lhs => rw [← List.take_append_drop m t]
      rw [hu]
  case h_2 => exact absurd h1 (by simp)

theorem tryG1_isSome {g1 t1 t2 w2 g2 tail : Str} (hg1 : g1 ≠ []) (hn : NonNl g1)
    (ht1 : IsWS t1) (ht2 : IsWS t2) (hw2 : IsWS w2) (hw2ne : w2 ≠ [])
    (hg : g2 ≠ []) (hgn : NonWS g2) :
    (tryG1 (g1 ++ (t1 ++ ('\n' :: (t2 ++ (revLit ++ (w2 ++ (g2 ++ tail)))))))).isSome := by
  set Y : Str := t1 ++ ('\n' :: (t2 ++ (revLit ++ (w2 ++ (g2 ++ tail))))) with hY
  have hg1run : (g1 ++ Y).takeWhile (fun c => c ≠ '\n') =
      g1 ++ Y.takeWhile (fun c => c ≠ '\n') := by
    apply takeWhile_append_all
    intro x hx
    simp [hn x hx]
  simp only [tryG1]
  apply findSome?_isSome_of_mem (a := g1.length)
  · rw [mem_altsAsc, hg1run]
    constructor
    · rcases g1 with _ | _
      · exact absurd rfl hg1
      · simp
    · simp
  · rw [List.drop_left]
    have := @tryNl_isSome t1 t2 w2 g2 tail ht1 ht2 hw2 hw2ne hg hgn
    rw [← hY] at this
    cases htn : tryNl Y with
    | some p => rcases p with ⟨a, b⟩; simp
    | none => rw [htn] at this; simp at this

theorem matchBlockAt_sound {s g1 g2 rest : Str}
    (h : matchBlockAt s = some (g1, g2, rest)) :
    ∃ b, s = b ++ rest ∧ BlockOcc b g1 g2 := by
  simp only [matchBlockAt] at h
  split at h
  case isTrue hpre =>
    obtain ⟨t, ht⟩ := List.isPrefixOf_iff_prefix.mp hpre
    have hdrop5 : s.drop 5 = t := by
      rw [← ht]
      have h5 : (5 : Nat) = repoLit.length := rfl
      rw [h5, List.drop_left]
    rw [hdrop5] at h
    obtain ⟨k, hk, h1⟩ := List.exists_of_findSome?_eq_some h
    rw [mem_altsDesc] at hk
    obtain ⟨hg1ne, hg1n, t1, t2, w2, ht1, ht2, hw2, hw2ne, hg2ne, hg2n, hu⟩ := tryG1_sound h1
    refine ⟨repoLit ++ (t.takeWhile pyWS).take k ++ g1 ++ t1 ++
      '\n' :: (t2 ++ revLit ++ w2 ++ g2), ?_, ?_⟩
    · have hts : t = (t.takeWhile pyWS).take k ++
          (g1 ++ (t1 ++ ('\n' :: (t2 ++ (revLit ++ (w2 ++ (g2 ++ rest))))))) := by
        conv_lhs => rw [append_take_drop_run (p := pyWS) t k]
        rw [hu]
      calc s = repoLit ++ t := ht.symm
        _ = repoLit ++ ((t.takeWhile pyWS).take k ++
            (g1 ++ (t1 ++ ('\n' :: (t2 ++ (revLit ++ (w2 ++ (g2 ++ rest)))))))) := by
            rw [← hts]
        _ = (repoLit ++ (t.takeWhile pyWS).take k ++ g1 ++ t1 ++
            '\n' :: (t2 ++ revLit ++ w2 ++ g2)) ++ rest := by
            simp [List.append_assoc]
    · exact ⟨(t.takeWhile pyWS).take k, t1, t2, w2, by simp [List.append_assoc],
        take_run_ne_nil hk.1 hk.2, takeWhile_take_all t k, hg1ne, hg1n, ht1, ht2,
        hw2ne, hw2, hg2ne, hg2n⟩
  case isFalse => exact absurd h (by simp)

theorem matchBlockAt_isSome {w1 g1 t1 t2 w2 g2 tail : Str}
    (hw1 : IsWS w1) (hw1ne : w1 ≠ []) (hg1 : g1 ≠ []) (hg1n : NonNl g1)
    (ht1 : IsWS t1) (ht2 : IsWS t2) (hw2 : IsWS w2) (hw2ne : w2 ≠ [])
    (hg2 : g2 ≠ []) (hg2n : NonWS g2) :
    (matchBlockAt ((repoLit ++ w1 ++ g1 ++ t1 ++ '\n' :: (t2 ++ revLit ++ w2 ++ g2)) ++
      tail)).isSome := by
  set X : Str := g1 ++ (t1 ++ ('\n' :: (t2 ++ (revLit ++ (w2 ++ (g2 ++ tail)))))) with hX
  have hs : (repoLit ++ w1 ++ g1 ++ t1 ++ '\n' :: (t2 ++ revLit ++ w2 ++ g2)) ++ tail =
      repoLit ++ (w1 ++ X) := by
    rw [hX]
    simp [List.append_assoc]
  rw [hs]
  simp only [matchBlockAt]
  rw [if_pos ( List.isPrefixOf_iff_prefix.mpr ⟨w1 ++ X, rfl⟩)]
  have hdrop5 : (repoLit ++ (w1 ++ X)).drop 5 = w1 ++ X := by
    have h5 : (5 : Nat) = repoLit.length := rfl
    rw [h5, List.drop_left]
  rw [hdrop5]
  have htw : (w1 ++ X).takeWhile pyWS = w1 ++ X.takeWhile pyWS :=
    takeWhile_append_all _ hw1
  have hdw : (w1 ++ X).dropWhile pyWS = X.dropWhile pyWS :=
    dropWhile_append_all _ hw1
  apply findSome?_isSome_of_mem (a := w1.length)
  · rw [mem_altsDesc, htw]
    constructor
    · rcases w1 with _ | _
      · exact absurd rfl hw1ne
      · simp
    · simp
  · have hcomb : ((w1 ++ X).takeWhile pyWS).drop w1.length ++ (w1 ++ X).dropWhile pyWS =
        X := by
      rw [htw, hdw, List.drop_left, List.takeWhile_append_dropWhile]
    rw [hcomb, hX]
    exact tryG1_isSome hg1 hg1n ht1 ht2 hw2 hw2ne hg2 hg2n

/- The scanner characterization: finditer consumes the non-overlapping
   block occurrences left to right and skips exactly the positions where
   no occurrence begins. -/

theorem matchBlockAt_none_noBlock {s : Str} (h : matchBlockAt s = none) : NoBlockAt s := by
  rintro ⟨b, g1, g2, r, rfl, hocc⟩
  obtain ⟨w1, t1, t2, w2, rfl, hw1ne, hw1, hg1ne, hg1n, ht1, ht2, hw2ne, hw2, hg2ne, hg2n⟩ :=
    hocc
  have := @matchBlockAt_isSome w1 g1 t1 t2 w2 g2 r hw1 hw1ne hg1ne hg1n ht1 ht2 hw2 hw2ne hg2ne hg2n
  rw [h] at this
  simp at this

theorem blockOcc_ne_nil {b g1 g2 : Str} (h : BlockOcc b g1 g2) : b ≠ [] := by
  obtain ⟨w1, t1, t2, w2, rfl, _⟩ := h
  simp [repoLit]

theorem finds_finditerAux :
    ∀ fuel : Nat, ∀ s : Str, s.length ≤ fuel → Finds s (finditerAux fuel s) := by
  intro fuel
  induction fuel with
  | zero =>
    intro s hs
    have : s = [] := List.length_eq_zero.mp (Nat.le_zero.mp hs)
    subst this
    exact Finds.nil
  | succ n ih =>
    intro s hs
    cases s with
    | nil => exact Finds.nil
    | cons c rest0 =>
      cases hm : matchBlockAt (c :: rest0) with
      | some p =>
        rcases p with ⟨g1, g2, rest⟩
        have hunf : finditerAux (n + 1) (c :: rest0) = (g1, g2) :: finditerAux n rest := by
          simp [finditerAux, hm]
        obtain ⟨b, hseq, hocc⟩ := matchBlockAt_sound hm
        have hblen : 1 ≤ b.length := by
          rcases hb : b with _ | _
          · exact absurd hb (blockOcc_ne_nil hocc)
          · simp
        have hrest : rest.length ≤ n := by
          have := congrArg List.length hseq
          simp only [List.length_append, List.length_cons] at this
          simp only [List.length_cons] at hs
          omega
        rw [hunf, hseq]
        exact Finds.found b g1 g2 rest _ hocc (ih rest hrest)
      | none =>
        have hunf : finditerAux (n + 1) (c :: rest0) = finditerAux n rest0 := by
          simp [finditerAux, hm]
        have hlen : rest0.length ≤ n := by
          simp only [List.length_cons] at hs
          omega
        rw [hunf]
        exact Finds.skip c rest0 _ (matchBlockAt_none_noBlock hm) (ih rest0 hlen)

theorem finds_finditer (s : Str) : Finds s (finditer s) :=
  finds_finditerAux s.length s (Nat.le_refl _)

theorem finds_groups {s : Str} {ms : List (Str × Str)} (h : Finds s ms) :
    ∀ p ∈ ms, p.1 ≠ [] ∧ NonNl p.1 ∧ p.2 ≠ [] ∧ NonWS p.2 := by
  induction h with
  | nil => intro p hp; simp at hp
  | skip c s ms hnb hf ih => exact ih
  | found b g1 g2 r ms hocc hf ih =>
    intro p hp
    rcases List.mem_cons.mp hp with h1 | h1
    · obtain ⟨w1, t1, t2, w2, hb, hw1ne, hw1, hg1ne, hg1n, ht1, ht2, hw2ne, hw2, hg2ne,
        hg2n⟩ := hocc
      rw [h1]
      exact ⟨hg1ne, hg1n, hg2ne, hg2n⟩
    · exact ih p h1

theorem finditer_groups {s : Str} {p : Str × Str} (h : p ∈ finditer s) :
    p.1 ≠ [] ∧ NonNl p.1 ∧ p.2 ≠ [] ∧ NonWS p.2 :=
  finds_groups (finds_finditer s) p h

/- Claim C5: the document scanner yields exactly the non-overlapping
   occurrences of the two-line block, in file order, one usage record per
   occurrence. -/

/-- Claim C5: on every document text the scanner result satisfies the Finds
    relation, so the emitted matches are exactly the non-overlapping block
    occurrences taken left to right, with no occurrence beginning at any
    skipped position; and the records of scan_markdown_files are, file by
    file in order, one record per match holding the file path, the
    normalized stripped reference and the stripped revision token. -/
theorem claim_C5 :
    (∀ content : Str, Finds content (finditer content))
    ∧ ∀ files : List (String × Str),
        scan_markdown_files files =
          files.flatMap (fun pc =>
            (finditer pc.2).map (fun g =>
              (pc.1, normalize_repo_url (pyStrip g.1), pyStrip g.2))) :=
  ⟨finds_finditer, fun _ => rfl⟩

/- Claim C10: every revision bound in the canonical map and every revision
   of a usage record is a non-empty whitespace-free token, and therefore
   the truthiness test of the reconciler agrees with key membership. -/

/-- Claim C10: canonical revisions and scanned revisions are non-empty and
    whitespace-free, and on maps whose values are non-empty the Python
    truthiness of a lookup equals its key-membership test. -/
theorem claim_C10 :
    (∀ content : Str, ∀ kv ∈ parse_pre_commit_config content, kv.2 ≠ [] ∧ NonWS kv.2)
    ∧ (∀ files : List (String × Str), ∀ u ∈ scan_markdown_files files,
        u.2.2 ≠ [] ∧ NonWS u.2.2)
    ∧ (∀ canon : List (Str × Str), ∀ key : Str,
        (∀ kv ∈ canon, kv.2 ≠ []) →
        (pyTruthyOpt (lookupAL canon key) = true ↔ (lookupAL canon key).isSome = true)) := by
  refine ⟨parse_good, ?_, ?_⟩
  · intro files u hu
    simp only [scan_markdown_files, List.mem_flatMap, List.mem_map] at hu
    obtain ⟨pc, hpc, g, hg, rfl⟩ := hu
    obtain ⟨hg1ne, hg1n, hg2ne, hg2n⟩ := finditer_groups hg
    have hstrip : pyStrip g.2 = g.2 := pyStrip_of_nonws hg2n
    exact ⟨by simpa [hstrip] using hg2ne, by simpa [hstrip] using hg2n⟩
  · intro canon key h
    cases hl : lookupAL canon key with
    | none => simp [pyTruthyOpt]
    | some v =>
      have hv : v ≠ [] := h (key, v) (lookupAL_mem hl)
      rcases v with _ | ⟨c, cs⟩
      · exact absurd rfl hv
      · simp [pyTruthyOpt]

/-- Claim C10, witness: the truthiness part applied to a concrete one-entry
    map whose value is non-empty. -/
theorem claim_C10_witness :
    pyTruthyOpt (lookupAL (((("a").toList : Str), (("1").toList : Str)) :: []) (("a").toList))
      = true ↔
    (lookupAL (((("a").toList : Str), (("1").toList : Str)) :: []) (("a").toList)).isSome
      = true :=
  claim_C10.2.2 (((("a").toList : Str), (("1").toList : Str)) :: []) (("a").toList) (by decide)

/- Characterization of the reconciler loop. -/

theorem reconcile_foldl (canon : List (Str × Str)) (usages : List (String × Str × Str)) :
    ∀ acc : List Diag × Nat × Nat,
      usages.foldl
        (fun acc u =>
          let step := processUsage canon u
          (acc.1 ++ step.1, acc.2.1 + step.2.1, acc.2.2 + step.2.2)) acc =
      (acc.1 ++ usages.flatMap (fun u => (processUsage canon u).1),
       acc.2.1 + (usages.map (fun u => (processUsage canon u).2.1)).sum,
       acc.2.2 + (usages.map (fun u => (processUsage canon u).2.2)).sum) := by
  induction usages with
  | nil => intro acc; simp
  | cons u rest ih =>
    intro acc
    simp only [List.foldl_cons]
    rw [ih]
    simp [List.append_assoc, Nat.add_assoc]

theorem reconcile_eq (canon : List (Str × Str)) (usages : List (String × Str × Str)) :
    reconcile canon usages =
      (usages.flatMap (fun u => (processUsage canon u).1),
       (usages.map (fun u => (processUsage canon u).2.1)).sum,
       (usages.map (fun u => (processUsage canon u).2.2)).sum) := by
  unfold reconcile
  rw [reconcile_foldl]
  simp

theorem processUsage_of_match {canon : List (Str × Str)} {u : String × Str × Str}
    (hvals : ∀ kv ∈ canon, kv.2 ≠ []) (hnodup : (canon.map Prod.fst).Nodup)
    (hmatch : resolvedRev canon u.2.1 = some u.2.2 ∨ resolvedRev canon u.2.1 = none) :
    (processUsage canon u).1 = [] ∧ (processUsage canon u).2.1 = 0 := by
  rcases u with ⟨file, key, rev⟩
  simp only [resolvedRev] at hmatch
  cases hl : lookupAL canon key with
  | some v =>
    have hv : v ≠ [] := hvals (key, v) (lookupAL_mem hl)
    rw [hl] at hmatch
    have hrev : rev = v := by
      rcases hmatch with h1 | h1
      · exact (Option.some.inj h1).symm
      · exact absurd h1 (by simp)
    rcases v with _ | ⟨c, cs⟩
    · exact absurd rfl hv
    · simp [processUsage, hl, pyTruthyOpt, hrev]
  | none =>
    rw [hl] at hmatch
    cases hf : canon.find? (fun kv => suffixRel key kv.1) with
    | some kv =>
      rw [hf] at hmatch
      have hrev : rev = kv.2 := by
        rcases hmatch with h1 | h1
        · exact (Option.some.inj h1).symm
        · exact absurd h1 (by simp)
      have hmem := List.mem_of_find?_eq_some hf
      have hlk : lookupAL canon kv.1 = some kv.2 := lookupAL_of_mem_nodup hnodup hmem
      obtain ⟨k1, v1⟩ := kv
      rcases k1 with _ | ⟨c, cs⟩
      · simp [processUsage, hl, pyTruthyOpt, hf]
      · simp [processUsage, hl, pyTruthyOpt, hf, hlk, hrev]
    | none =>
      simp [processUsage, hl, pyTruthyOpt, hf]

theorem reconcile_all_match {canon : List (Str × Str)} {usages : List (String × Str × Str)}
    (hvals : ∀ kv ∈ canon, kv.2 ≠ []) (hnodup : (canon.map Prod.fst).Nodup)
    (hmatch : ∀ u ∈ usages,
        resolvedRev canon u.2.1 = some u.2.2 ∨ resolvedRev canon u.2.1 = none) :
    (reconcile canon usages).1 = [] ∧ (reconcile canon usages).2.1 = 0 := by
  rw [reconcile_eq]
  constructor
  · simp only [List.flatMap_eq_nil_iff]
    intro u hu
    exact (processUsage_of_match hvals hnodup (hmatch u hu)).1
  · apply List.sum_eq_zero
    intro x hx
    obtain ⟨u, hu, rfl⟩ := List.mem_map.mp hx
    exact (processUsage_of_match hvals hnodup (hmatch u hu)).2

/- Claim C3: the fuzzy fallback fires exactly when the identity is absent
   from the map, picks the first suffix-related canonical identity in map
   order, and emits one diagnostic exactly when the revisions differ. -/

/-- Claim C3: on a canonical map with non-empty keys, non-empty values and
    unique keys, all three of which the config parser guarantees, a usage
    whose identity is a key takes the exact branch, and a usage whose
    identity is not a key takes the fuzzy branch: the candidate is the first
    entry, in map order, whose key is suffix-related to the identity, a
    differing revision emits one fuzzy diagnostic and one error, an equal
    revision emits nothing, and no candidate yields one warning only. -/
theorem claim_C3 :
    ∀ canon : List (Str × Str), ∀ file : String, ∀ key rev : Str,
      (∀ kv ∈ canon, kv.1 ≠ []) → (∀ kv ∈ canon, kv.2 ≠ []) →
      (canon.map Prod.fst).Nodup →
      (((lookupAL canon key).isSome = true →
        processUsage canon (file, key, rev) =
          (if rev ≠ (lookupAL canon key).getD [] then
            ((Diag.mismatch file key rev ((lookupAL canon key).getD [])) :: [], 1, 0)
          else ([], 0, 0)))
      ∧ (lookupAL canon key = none →
        processUsage canon (file, key, rev) =
          (match canon.find? (fun kv => suffixRel key kv.1) with
           | some kv =>
             if rev ≠ kv.2 then ((Diag.fuzzy file key kv.1 rev kv.2) :: [], 1, 0)
             else ([], 0, 0)
           | none => ([], 0, 1)))) := by
  intro canon file key rev hkeys hvals hnodup
  constructor
  · intro hsome
    obtain ⟨v, hl⟩ := Option.isSome_iff_exists.mp hsome
    have hv : v ≠ [] := hvals (key, v) (lookupAL_mem hl)
    rcases v with _ | ⟨c, cs⟩
    · exact absurd rfl hv
    · simp [processUsage, hl, pyTruthyOpt]
  · intro hnone
    cases hf : canon.find? (fun kv => suffixRel key kv.1) with
    | some kv =>
      have hmem := List.mem_of_find?_eq_some hf
      have hkne : kv.1 ≠ [] := hkeys kv hmem
      have hlk : lookupAL canon kv.1 = some kv.2 := lookupAL_of_mem_nodup hnodup hmem
      obtain ⟨k1, v1⟩ := kv
      rcases k1 with _ | ⟨c, cs⟩
      · exact absurd rfl hkne
      · simp [processUsage, hnone, pyTruthyOpt, hf, hlk]
    | none =>
      simp [processUsage, hnone, pyTruthyOpt, hf]

/-- Claim C3, witness: a one-entry map, a usage identity absent from the map
    but having the entry key as a suffix, and a differing revision produce
    exactly one fuzzy-mismatch diagnostic and one error. -/
theorem claim_C3_witness :
    processUsage (((("ab").toList : Str), (("1").toList : Str)) :: [])
      ("g.md", ("x/ab").toList, ("2").toList) =
      ((Diag.fuzzy ("g.md") (("x/ab").toList) (("ab").toList) (("2").toList)
        (("1").toList)) :: [], 1, 0) := by
  have h := (claim_C3 (((("ab").toList : Str), (("1").toList : Str)) :: []) "g.md"
    (("x/ab").toList) (("2").toList) (by decide) (by decide) (by decide)).2 (by decide)
  exact h.trans (by decide)

/- Claim C4: the exit status taxonomy of main. -/

/-- Claim C4: the exit status is always zero or one; it is one when the
    config file is missing, one when the parsed config is empty, and for a
    non-empty parsed config it is zero exactly when the error counter of the
    reconciler is zero, warnings notwithstanding. -/
theorem claim_C4 :
    ∀ config : Option Str, ∀ files : List (String × Str),
      ((runMain config files).1 = 0 ∨ (runMain config files).1 = 1)
      ∧ (runMain none files).1 = 1
      ∧ (∀ c : Str, parse_pre_commit_config c = [] → (runMain (some c) files).1 = 1)
      ∧ (∀ c : Str, parse_pre_commit_config c ≠ [] →
          ((runMain (some c) files).1 = 0 ↔
            (reconcile (parse_pre_commit_config c) (scan_markdown_files files)).2.1 = 0)) := by
  intro config files
  refine ⟨?_, rfl, ?_, ?_⟩
  · cases config with
    | none => exact Or.inr rfl
    | some c =>
      simp only [runMain]
      split
      · exact Or.inr rfl
      · split
        · exact Or.inl rfl
        · exact Or.inr rfl
  · intro c h
    simp [runMain, h]
  · intro c h
    simp only [runMain]
    rw [if_neg h]
    by_cases he : (reconcile (parse_pre_commit_config c) (scan_markdown_files files)).2.1 = 0
    · simp [he]
    · simp [he]

/-- Claim C4, witness: a config whose parse yields no canonical versions
    makes the run exit with status one. -/
theorem claim_C4_witness :
    (runMain (some (("x").toList)) ([] : List (String × Str))).1 = 1 :=
  (claim_C4 (some (("x").toList)) ([] : List (String × Str))).2.2.1 (("x").toList) (by decide)

/- Claim C7: when every usage agrees with its resolved canonical revision
   the run is silent and succeeds. -/

/-- Claim C7: on a canonical map with non-empty values and unique keys, if
    every usage revision equals its exact or fuzzy-resolved canonical
    revision (usages resolving to nothing are warnings and are allowed),
    the reconciler emits no diagnostics and counts no errors; and a run
    whose parsed config is non-empty and whose scanned usages all agree
    exits with status zero and prints no mismatch diagnostics. -/
theorem claim_C7 :
    (∀ canon : List (Str × Str), ∀ usages : List (String × Str × Str),
        (∀ kv ∈ canon, kv.2 ≠ []) → (canon.map Prod.fst).Nodup →
        (∀ u ∈ usages,
            resolvedRev canon u.2.1 = some u.2.2 ∨ resolvedRev canon u.2.1 = none) →
        (reconcile canon usages).1 = [] ∧ (reconcile canon usages).2.1 = 0)
    ∧ (∀ config : Str, ∀ files : List (String × Str),
        parse_pre_commit_config config ≠ [] →
        (∀ u ∈ scan_markdown_files files,
            resolvedRev (parse_pre_commit_config config) u.2.1 = some u.2.2 ∨
            resolvedRev (parse_pre_commit_config config) u.2.1 = none) →
        runMain (some config) files = (0, [])) := by
  constructor
  · intro canon usages hvals hnodup hmatch
    exact reconcile_all_match hvals hnodup hmatch
  · intro config files hne hmatch
    have hvals : ∀ kv ∈ parse_pre_commit_config config, kv.2 ≠ [] :=
      fun kv hkv => (parse_good config kv hkv).1
    have hnodup := parse_nodup config
    have h := reconcile_all_match hvals hnodup hmatch
    simp only [runMain]
    rw [if_neg hne, if_pos h.2, h.1]

/-- Claim C7, witness: the run-level part applied to a concrete config and
    one guide whose revision agrees with the canonical revision. -/
theorem claim_C7_witness :
    runMain (some (("- repo: https://github.com/psf/black\n  rev: 24.4.0").toList))
      (("guides/a.md", ("repo: https://github.com/psf/black\nrev: 24.4.0").toList) :: []) =
      (0, []) :=
  claim_C7.2 (("- repo: https://github.com/psf/black\n  rev: 24.4.0").toList)
    (("guides/a.md", ("repo: https://github.com/psf/black\nrev: 24.4.0").toList) :: [])
    (by decide) (by decide)

end ValidateVersions
